import Mathlib

/-!
Shallow embedding of the Fourier-space correlation engines of the
postprocessing repository: the self and collective intermediate scattering
functions (fkt.py), the structure factor and its optimized variant (sk.py),
the discrete time grid builder and array setup (correlation.py), the
relaxation-time extractor (fkt.py), and the field loader (sk.py).

Complex amplitudes are modelled by pairs of rationals (exact arithmetic in
place of floating point); phase tables produced by the external
expo_sphere tabulator are abstract inputs to the engines, matching how the
engines consume them.
-/

/-- A complex number with rational components, modelling the complex float
values used by the engines. -/
@[ext]
structure CQ where
  re : ℚ
  im : ℚ
deriving DecidableEq, Repr

instance : Zero CQ := ⟨⟨0, 0⟩⟩

instance : One CQ := ⟨⟨1, 0⟩⟩

instance : Add CQ := ⟨fun a b => ⟨a.re + b.re, a.im + b.im⟩⟩

instance : Mul CQ := ⟨fun a b => ⟨a.re * b.re - a.im * b.im, a.re * b.im + a.im * b.re⟩⟩

instance : Sub CQ := ⟨fun a b => ⟨a.re - b.re, a.im - b.im⟩⟩

/-- Complex conjugate. -/
def CQ.conj (z : CQ) : CQ := ⟨z.re, -z.im⟩

/-- Division of a complex value by a rational scalar (componentwise, as in
numpy complex divided by a real count). -/
def CQ.divQ (z : CQ) (q : ℚ) : CQ := ⟨z.re / q, z.im / q⟩

@[simp] theorem CQ.re_zero : (0 : CQ).re = 0 := rfl

@[simp] theorem CQ.im_zero : (0 : CQ).im = 0 := rfl

@[simp] theorem CQ.re_one : (1 : CQ).re = 1 := rfl

@[simp] theorem CQ.im_one : (1 : CQ).im = 0 := rfl

@[simp] theorem CQ.re_add (a b : CQ) : (a + b).re = a.re + b.re := rfl

@[simp] theorem CQ.im_add (a b : CQ) : (a + b).im = a.im + b.im := rfl

@[simp] theorem CQ.re_sub (a b : CQ) : (a - b).re = a.re - b.re := rfl

@[simp] theorem CQ.im_sub (a b : CQ) : (a - b).im = a.im - b.im := rfl

@[simp] theorem CQ.re_mul (a b : CQ) : (a * b).re = a.re * b.re - a.im * b.im := rfl

@[simp] theorem CQ.im_mul (a b : CQ) : (a * b).im = a.re * b.im + a.im * b.re := rfl

@[simp] theorem CQ.re_conj (a : CQ) : a.conj.re = a.re := rfl

@[simp] theorem CQ.im_conj (a : CQ) : a.conj.im = -a.im := rfl

@[simp] theorem CQ.re_divQ (a : CQ) (q : ℚ) : (a.divQ q).re = a.re / q := rfl

@[simp] theorem CQ.im_divQ (a : CQ) (q : ℚ) : (a.divQ q).im = a.im / q := rfl

@[simp] theorem CQ.mk_add (a b c d : ℚ) :
    (CQ.mk a b) + (CQ.mk c d) = ⟨a + c, b + d⟩ := rfl

@[simp] theorem CQ.mk_mul (a b c d : ℚ) :
    (CQ.mk a b) * (CQ.mk c d) = ⟨a * c - b * d, a * d + b * c⟩ := rfl

@[simp] theorem CQ.mk_sub (a b c d : ℚ) :
    (CQ.mk a b) - (CQ.mk c d) = ⟨a - c, b - d⟩ := rfl

@[simp] theorem CQ.mk_conj (a b : ℚ) : (CQ.mk a b).conj = ⟨a, -b⟩ := rfl

@[simp] theorem CQ.mk_divQ (a b q : ℚ) : (CQ.mk a b).divQ q = ⟨a / q, b / q⟩ := rfl

@[simp] theorem CQ.zero_def : (0 : CQ) = ⟨0, 0⟩ := rfl

@[simp] theorem CQ.one_def : (1 : CQ) = ⟨1, 0⟩ := rfl

theorem CQ.add_assoc (a b c : CQ) : a + b + c = a + (b + c) := by
  ext <;> simp <;> ring

theorem CQ.add_comm (a b : CQ) : a + b = b + a := by
  ext <;> simp <;> ring

theorem CQ.add_zero (a : CQ) : a + 0 = a := by
  ext <;> simp

theorem CQ.zero_add (a : CQ) : 0 + a = a := by
  ext <;> simp

/-- Sum of a list of complex values. -/
def sumC (l : List CQ) : CQ := l.foldr (fun a b => a + b) 0

@[simp] theorem sumC_nil : sumC [] = 0 := rfl

@[simp] theorem sumC_cons (a : CQ) (l : List CQ) : sumC (a :: l) = a + sumC l := rfl

theorem sumC_append (l m : List CQ) : sumC (l ++ m) = sumC l + sumC m := by
  induction l with
  | nil => rw [List.nil_append, sumC_nil, CQ.zero_add]
  | cons a t ih => rw [List.cons_append, sumC_cons, sumC_cons, ih, CQ.add_assoc]

@[simp] theorem sumC_re (l : List CQ) : (sumC l).re = (l.map CQ.re).sum := by
  induction l with
  | nil => rfl
  | cons a t ih => simp [ih]

@[simp] theorem sumC_im (l : List CQ) : (sumC l).im = (l.map CQ.im).sum := by
  induction l with
  | nil => rfl
  | cons a t ih => simp [ih]

/-- Sum of values of a function over the particle indices 0, ..., n-1
(numpy.sum over a particle axis). -/
def sumOver (n : ℕ) (g : ℕ → CQ) : CQ := sumC ((List.range n).map g)

/-- Python range(start, stop, step) as a list of naturals. -/
def rangeStep (start stop step : ℕ) : List ℕ :=
  (List.range ((stop - start + step - 1) / step)).map (fun m => start + m * step)

theorem rangeStep_nil (start stop step : ℕ) (h : stop ≤ start) :
    rangeStep start stop step = [] := by
  unfold rangeStep
  have h0 : stop - start = 0 := Nat.sub_eq_zero_of_le h
  rw [h0]
  rcases Nat.eq_zero_or_pos step with hs | hs
  · subst hs; simp
  · have hlt : (0 + step - 1) / step = 0 := by
      apply Nat.div_eq_of_lt
      omega
    rw [hlt]; simp

theorem rangeStep_cons (start stop step : ℕ) (hs : 1 ≤ step) (h : start < stop) :
    rangeStep start stop step = start :: rangeStep (start + step) stop step := by
  unfold rangeStep
  have hd : 1 ≤ stop - start := by omega
  have hcount : (stop - start + step - 1) / step = (stop - (start + step) + step - 1) / step + 1 := by
    rcases Nat.le_total (stop - start) step with hle | hle
    · have h1 : stop - (start + step) = 0 := by omega
      rw [h1]
      have h2 : (0 + step - 1) / step = 0 := by
        apply Nat.div_eq_of_lt; omega
      rw [h2]
      have h3 : stop - start + step - 1 = (stop - start - 1) + step := by omega
      rw [h3, Nat.add_div_right _ (by omega : 0 < step)]
      have h4 : (stop - start - 1) / step = 0 := by
        apply Nat.div_eq_of_lt; omega
      rw [h4]
    · have h1 : stop - (start + step) + step - 1 = stop - start - 1 := by omega
      rw [h1]
      have h3 : stop - start + step - 1 = (stop - start - 1) + step := by omega
      rw [h3, Nat.add_div_right _ (by omega : 0 < step)]
  rw [hcount, List.range_succ_eq_map]
  simp only [List.map_cons, Nat.mul_comm, Nat.zero_mul, Nat.add_zero, List.map_map]
  congr 1
  apply List.map_congr_left
  intro m _
  simp [Function.comp]
  ring

/-- Sum of block widths over the block origins covers all particles:
summing min(blockcap, n - j) over j = 0, blockcap, 2*blockcap, ... below n
gives exactly n. -/
theorem rangeStep_min_sum (step : ℕ) (hs : 1 ≤ step) :
    ∀ k n a, n - a ≤ k →
      ((rangeStep a n step).map (fun j => ((min step (n - j) : ℕ) : ℚ))).sum = ((n - a : ℕ) : ℚ)
  | 0, n, a, hk => by
    have h : n ≤ a := by omega
    rw [rangeStep_nil _ _ _ h]
    simp [Nat.sub_eq_zero_of_le h]
  | k + 1, n, a, hk => by
    rcases Nat.lt_or_ge a n with h | h
    · rw [rangeStep_cons _ _ _ hs h]
      simp only [List.map_cons, List.sum_cons]
      rw [rangeStep_min_sum step hs k n (a + step) (by omega)]
      have : ((min step (n - a) : ℕ) : ℚ) + ((n - (a + step) : ℕ) : ℚ) = ((n - a : ℕ) : ℚ) := by
        rcases Nat.le_total step (n - a) with hle | hle
        · rw [min_eq_left hle]
          have h2 : a + step ≤ n := by omega
          rw [Nat.cast_sub (by omega : a + step ≤ n), Nat.cast_sub (by omega : a ≤ n)]
          push_cast
          ring
        · rw [min_eq_right hle]
          have h1 : n - (a + step) = 0 := by omega
          rw [h1]
          simp
      rw [this]
    · rw [rangeStep_nil _ _ _ h]
      simp [Nat.sub_eq_zero_of_le h]

/-!
Self intermediate scattering engine (SelfIntermediateScattering._compute in
fkt.py). The phase tables produced by expo_sphere for each particle block
are an abstract input tab: tab j t p a n is the phase factor of block j at
time sample t, particle p of the block, spatial axis a, signed wave index
n. Everything else follows the source loop structure.
-/

/-- Configuration of a SelfIntermediateScattering computation. -/
structure SelfConfig where
  nframes : ℕ
  npart : ℕ
  steps : ℕ → ℤ
  blockSize : ℕ
  skipAttr : ℕ
  tgrid : List (ℕ × ℕ)
  kselected : List (List (Fin 3 → ℤ))
  tab : ℕ → ℕ → ℕ → Fin 3 → ℤ → CQ

/-- block = min(20, number of particles). -/
def selfBlockCap (c : SelfConfig) : ℕ := min 20 c.npart

/-- origins = range(0, npart, block): the starting particle of each block. -/
def selfOrigins (c : SelfConfig) : List ℕ := rangeStep 0 c.npart (selfBlockCap c)

/-- Number of particles in the block starting at j (x.shape[1] of the
sliced position array pos[:, j:j+block, :]). -/
def selfWidth (c : SelfConfig) (j : ℕ) : ℕ := min (selfBlockCap c) (c.npart - j)

/-- skip = block_size if block_size > 1 else self.skip. -/
def selfUsedSkip (c : SelfConfig) : ℕ :=
  if 1 < c.blockSize then c.blockSize else c.skipAttr

/-- One accumulated term: the real part of the particle sum of the product
of per-axis phase factors at i0+i with the conjugates at i0. -/
def selfTerm (c : SelfConfig) (j : ℕ) (ik : Fin 3 → ℤ) (i i0 : ℕ) : ℚ :=
  (sumOver (selfWidth c j) (fun p =>
    c.tab j (i0 + i) p 0 (ik 0) * (c.tab j i0 p 0 (ik 0)).conj *
    c.tab j (i0 + i) p 1 (ik 1) * (c.tab j i0 p 1 (ik 1)).conj *
    c.tab j (i0 + i) p 2 (ik 2) * (c.tab j i0 p 2 (ik 2)).conj)).re

/-- One iteration of the accumulation loops: block origin j, wave-index
triple ik, grid lag i, time origin i0. -/
structure SelfIter where
  j : ℕ
  ik : Fin 3 → ℤ
  i : ℕ
  i0 : ℕ

/-- The iteration space of the nested loops of the shell with index kk:
for j in origins, for ik in selected vectors, for (off, i) in the discrete
time grid, for i0 in range(off, nframes - i, skip). -/
def selfInner (c : SelfConfig) (kk : ℕ) (j : ℕ) : List SelfIter :=
  (c.kselected.getD kk []).flatMap (fun ik =>
    c.tgrid.flatMap (fun oi =>
      (rangeStep oi.1 (c.nframes - oi.2) (selfUsedSkip c)).map
        (fun i0 => SelfIter.mk j ik oi.2 i0)))

def selfIters (c : SelfConfig) (kk : ℕ) : List SelfIter :=
  (selfOrigins c).flatMap (selfInner c kk)

/-- The realized step difference of one iteration:
steps[i0+i] - steps[i0]. -/
def selfDt (c : SelfConfig) (it : SelfIter) : ℤ :=
  c.steps (it.i0 + it.i) - c.steps it.i0

/-- acf[kk][dt] after the loops. -/
def selfAcf (c : SelfConfig) (kk : ℕ) (dt : ℤ) : ℚ :=
  ((selfIters c kk).map (fun it =>
    if selfDt c it = dt then selfTerm c it.j it.ik it.i it.i0 else 0)).sum

/-- cnt[kk][dt] after the loops: each contribution adds x.shape[1], the
particle count of the current block. -/
def selfCnt (c : SelfConfig) (kk : ℕ) (dt : ℤ) : ℚ :=
  ((selfIters c kk).map (fun it =>
    if selfDt c it = dt then ((selfWidth c it.j : ℕ) : ℚ) else 0)).sum

/-- The keys of acf[0]: every realized step difference of shell 0. -/
def selfKeys (c : SelfConfig) : List ℤ := (selfIters c 0).map (selfDt c)

/-- Sorted list of distinct keys (sorted(acf[0].keys())). -/
def sortKeysZ (l : List ℤ) : List ℤ :=
  List.insertionSort (fun a b => a ≤ b) l.dedup

/-- t_sorted of the self engine. -/
def selfTSorted (c : SelfConfig) : List ℤ := sortKeysZ (selfKeys c)

/-- Unnormalized curve value acf[kk][ti] / cnt[kk][ti]. -/
def selfVnn (c : SelfConfig) (kk : ℕ) (ti : ℤ) : ℚ := selfAcf c kk ti / selfCnt c kk ti

/-- self.value: per shell, the unnormalized values over t_sorted divided
by the entry at index 0 (the smallest realized step difference). -/
def selfValue (c : SelfConfig) (kk : ℕ) : List ℚ :=
  (selfTSorted c).map (fun ti => selfVnn c kk ti / selfVnn c kk ((selfTSorted c).headI))

/-!
Collective intermediate scattering engine (IntermediateScattering._compute
and _tabulate_rho in fkt.py). Per-frame phase tables of the two filters
are abstract inputs expo0, expo1; same records whether the second filter
is the same object as the first (pos_1 is pos_0).
-/

/-- Configuration of an IntermediateScattering computation. -/
structure CollConfig where
  nframes : ℕ
  npart0 : ℕ → ℕ
  npart1 : ℕ → ℕ
  steps : ℕ → ℤ
  blockSize : ℕ
  tgrid : List (ℕ × ℕ)
  kselected : List (List (Fin 3 → ℤ))
  expo0 : ℕ → ℕ → Fin 3 → ℤ → CQ
  expo1 : ℕ → ℕ → Fin 3 → ℤ → CQ
  same : Bool

/-- rho_0[it][ik]: collective density amplitude of filter 0 at frame it. -/
def collRho0 (c : CollConfig) (it : ℕ) (ik : Fin 3 → ℤ) : CQ :=
  sumOver (c.npart0 it) (fun p =>
    c.expo0 it p 0 (ik 0) * c.expo0 it p 1 (ik 1) * c.expo0 it p 2 (ik 2))

/-- rho_1[it][ik]: reused by reference from rho_0 when the filters are
identical, otherwise tabulated from the second filter's phase table. -/
def collRho1 (c : CollConfig) (it : ℕ) (ik : Fin 3 → ℤ) : CQ :=
  if c.same then collRho0 c it ik
  else sumOver (c.npart1 it) (fun p =>
    c.expo1 it p 0 (ik 0) * c.expo1 it p 1 (ik 1) * c.expo1 it p 2 (ik 2))

/-- One iteration of the collective accumulation loops. -/
structure CollIter where
  ik : Fin 3 → ℤ
  i : ℕ
  i0 : ℕ

/-- Iteration space for shell kk: for ik in selected vectors, for (off, i)
in the grid, for i0 in range(off, nframes - i, block_size). -/
def collIters (c : CollConfig) (kk : ℕ) : List CollIter :=
  (c.kselected.getD kk []).flatMap (fun ik =>
    c.tgrid.flatMap (fun oi =>
      (rangeStep oi.1 (c.nframes - oi.2) c.blockSize).map
        (fun i0 => CollIter.mk ik oi.2 i0)))

/-- Realized step difference of one collective iteration. -/
def collDt (c : CollConfig) (it : CollIter) : ℤ :=
  c.steps (it.i0 + it.i) - c.steps it.i0

/-- acf[kk][dt] of the collective engine: real part of
rho_0[i0+i][ik] * conj(rho_1[i0][ik]). -/
def collAcf (c : CollConfig) (kk : ℕ) (dt : ℤ) : ℚ :=
  ((collIters c kk).map (fun it =>
    if collDt c it = dt
    then (collRho0 c (it.i0 + it.i) it.ik * (collRho1 c it.i0 it.ik).conj).re
    else 0)).sum

/-- cnt[kk][dt] of the collective engine: 1 per contributing iteration. -/
def collCnt (c : CollConfig) (kk : ℕ) (dt : ℤ) : ℚ :=
  ((collIters c kk).map (fun it => if collDt c it = dt then (1 : ℚ) else 0)).sum

/-- Keys of acf[0] for the collective engine. -/
def collKeys (c : CollConfig) : List ℤ := (collIters c 0).map (collDt c)

/-- times = sorted(acf[0].keys()). -/
def collTSorted (c : CollConfig) : List ℤ := sortKeysZ (collKeys c)

/-- value_nonorm entry: acf[kk][ti] / cnt[kk][ti]. -/
def collVnn (c : CollConfig) (kk : ℕ) (ti : ℤ) : ℚ := collAcf c kk ti / collCnt c kk ti

/-- self.value: both the identical-filter and the distinct-filter branches
divide the unnormalized curve by its entry at index 0. -/
def collValue (c : CollConfig) (kk : ℕ) : List ℚ :=
  (collTSorted c).map (fun ti => collVnn c kk ti / collVnn c kk ((collTSorted c).headI))

theorem sortKeysZ_sorted (l : List ℤ) :
    List.Sorted (fun a b : ℤ => a ≤ b) (sortKeysZ l) :=
  List.sorted_insertionSort _ _

theorem mem_sortKeysZ {x : ℤ} {l : List ℤ} : x ∈ sortKeysZ l ↔ x ∈ l := by
  simp [sortKeysZ]

/-- In a run whose realized step differences are all nonnegative and
include 0, the first entry of the sorted key list is the zero lag. -/
theorem sortKeysZ_headI_eq_zero (l : List ℤ) (h0 : (0 : ℤ) ∈ l)
    (hnn : ∀ x ∈ l, 0 ≤ x) : (sortKeysZ l).headI = 0 := by
  have hs := sortKeysZ_sorted l
  cases hm : sortKeysZ l with
  | nil =>
    exfalso
    have := mem_sortKeysZ.mpr h0
    rw [hm] at this
    exact List.not_mem_nil _ this
  | cons a t =>
    have ha : 0 ≤ a := by
      apply hnn
      apply mem_sortKeysZ.mp
      rw [hm]
      exact List.mem_cons_self a t
    have h0m : (0 : ℤ) ∈ a :: t := by
      rw [← hm]
      exact mem_sortKeysZ.mpr h0
    rcases List.mem_cons.mp h0m with h | h
    · simp [← h]
    · rw [hm] at hs
      have hle := (List.sorted_cons.mp hs).1 0 h
      simp only [List.headI]
      omega

theorem headI_map (l : List ℤ) (f : ℤ → ℚ) (hne : l ≠ []) :
    (l.map f).headI = f l.headI := by
  cases l with
  | nil => exact absurd rfl hne
  | cons a t => rfl

/-- C1: for every shell, the normalized curve of
SelfIntermediateScattering._compute has value exactly 1 at lag 0, and the
normalized curve of IntermediateScattering._compute with identical filters
has value exactly 1 at lag 0. The hypotheses state that the run realizes
the zero lag, that step differences are nonnegative (steps are
nondecreasing in any accepted trajectory), and that the lag-0 unnormalized
value is nonzero (otherwise the division 0/0 of the source would not be
defined). -/
theorem claim_C1 (cs : SelfConfig) (cc : CollConfig) (kks kkc : ℕ)
    (h0s : (0 : ℤ) ∈ selfKeys cs)
    (hnns : ∀ d ∈ selfKeys cs, 0 ≤ d)
    (hvs : selfVnn cs kks 0 ≠ 0)
    (hsame : cc.same = true)
    (h0c : (0 : ℤ) ∈ collKeys cc)
    (hnnc : ∀ d ∈ collKeys cc, 0 ≤ d)
    (hvc : collVnn cc kkc 0 ≠ 0) :
    (selfTSorted cs).headI = 0 ∧ (selfValue cs kks).headI = 1 ∧
    (collTSorted cc).headI = 0 ∧ (collValue cc kkc).headI = 1 := by
  have hhs : (selfTSorted cs).headI = 0 := sortKeysZ_headI_eq_zero _ h0s hnns
  have hhc : (collTSorted cc).headI = 0 := sortKeysZ_headI_eq_zero _ h0c hnnc
  have hnes : selfTSorted cs ≠ [] :=
    List.ne_nil_of_mem (mem_sortKeysZ.mpr h0s)
  have hnec : collTSorted cc ≠ [] :=
    List.ne_nil_of_mem (mem_sortKeysZ.mpr h0c)
  refine ⟨hhs, ?_, hhc, ?_⟩
  · rw [selfValue, headI_map _ _ hnes, hhs]
    exact div_self hvs
  · rw [collValue, headI_map _ _ hnec, hhc]
    exact div_self hvc

/-- A two-frame, one-particle run with constant steps, a single wave
vector and the zero lag in the grid. -/
def wSelfC1 : SelfConfig :=
  { nframes := 2, npart := 1, steps := fun _ => 0, blockSize := 1,
    skipAttr := 1, tgrid := [(0, 0)], kselected := [[fun _ => 0]],
    tab := fun _ _ _ _ _ => ⟨1, 0⟩ }

/-- A one-frame, one-particle collective run with identical filters. -/
def wCollC1 : CollConfig :=
  { nframes := 1, npart0 := fun _ => 1, npart1 := fun _ => 1,
    steps := fun _ => 0, blockSize := 1, tgrid := [(0, 0)],
    kselected := [[fun _ => 0]],
    expo0 := fun _ _ _ _ => ⟨1, 0⟩, expo1 := fun _ _ _ _ => ⟨1, 0⟩,
    same := true }

theorem claim_C1_witness :
    ((0 : ℤ) ∈ selfKeys wSelfC1) ∧ (∀ d ∈ selfKeys wSelfC1, 0 ≤ d) ∧
    selfVnn wSelfC1 0 0 ≠ 0 ∧
    wCollC1.same = true ∧ ((0 : ℤ) ∈ collKeys wCollC1) ∧
    (∀ d ∈ collKeys wCollC1, 0 ≤ d) ∧ collVnn wCollC1 0 0 ≠ 0 ∧
    ((selfTSorted wSelfC1).headI = 0 ∧ (selfValue wSelfC1 0).headI = 1 ∧
     (collTSorted wCollC1).headI = 0 ∧ (collValue wCollC1 0).headI = 1) := by
  have hvs : selfVnn wSelfC1 0 0 ≠ 0 := by
    simp [selfVnn, selfAcf, selfCnt, selfIters, selfInner, selfOrigins,
      selfBlockCap, selfUsedSkip, selfWidth, selfTerm, selfDt, sumOver, sumC,
      rangeStep, wSelfC1, List.range_succ]
  have hvc : collVnn wCollC1 0 0 ≠ 0 := by
    simp [collVnn, collAcf, collCnt, collIters, collRho0, collRho1,
      collDt, sumOver, sumC, rangeStep, wCollC1, List.range_succ]
  exact ⟨by decide, by decide, hvs, rfl, by decide, by decide, hvc,
    claim_C1 wSelfC1 wCollC1 0 0 (by decide) (by decide) hvs rfl
      (by decide) (by decide) hvc⟩

theorem sum_bind_map {α β : Type} (l : List α) (f : α → List β) (g : β → ℚ) :
    ((l.flatMap f).map g).sum = (l.map (fun a => ((f a).map g).sum)).sum := by
  induction l with
  | nil => rfl
  | cons a t ih =>
    rw [List.flatMap_cons, List.map_append, List.sum_append, ih, List.map_cons,
      List.sum_cons]

theorem sum_ite_count (l : List ℤ) (dt : ℤ) (w : ℚ) :
    (l.map (fun d => if d = dt then w else 0)).sum = w * (l.count dt : ℚ) := by
  induction l with
  | nil => simp
  | cons d t ih =>
    simp only [List.map_cons, List.sum_cons, ih, List.count_cons]
    by_cases h : d = dt
    · simp only [h, if_true, beq_self_eq_true]
      push_cast
      ring
    · have hb : (d == dt) = false := by simp [h]
      simp only [h, if_false, hb]
      push_cast
      ring

/-- The realized step differences of the time loops of shell kk (the part
of the iteration space that does not depend on the particle block). -/
def selfDts (c : SelfConfig) (kk : ℕ) : List ℤ :=
  (c.kselected.getD kk []).flatMap (fun ik =>
    c.tgrid.flatMap (fun oi =>
      (rangeStep oi.1 (c.nframes - oi.2) (selfUsedSkip c)).map
        (fun i0 => c.steps (i0 + oi.2) - c.steps i0)))

/-- Number of contributing (wave vector, grid pair, origin) iterations of
shell kk whose realized step difference is dt. -/
def selfContrib (c : SelfConfig) (kk : ℕ) (dt : ℤ) : ℕ :=
  (selfDts c kk).count dt

/-- Number of contributing (wave vector, grid pair, origin) iterations of
the collective engine for shell kk at step difference dt. -/
def collContrib (c : CollConfig) (kk : ℕ) (dt : ℤ) : ℕ :=
  (((collIters c kk).map (collDt c))).count dt

theorem selfWidth_sum (c : SelfConfig) :
    ((selfOrigins c).map (fun j => ((selfWidth c j : ℕ) : ℚ))).sum = (c.npart : ℚ) := by
  rcases Nat.eq_zero_or_pos c.npart with h | h
  · have hcap : selfBlockCap c = 0 := by simp [selfBlockCap, h]
    have : selfOrigins c = [] := by
      unfold selfOrigins
      exact rangeStep_nil _ _ _ (by omega)
    rw [this]
    simp [h]
  · have hcap : 1 ≤ selfBlockCap c := by
      simp only [selfBlockCap]
      omega
    unfold selfOrigins selfWidth
    have := rangeStep_min_sum (selfBlockCap c) hcap c.npart c.npart 0 (by omega)
    simpa using this

theorem selfInner_map (c : SelfConfig) (kk j : ℕ) (F : SelfIter → ℚ) (G : ℤ → ℚ)
    (h : ∀ ik i i0, F (SelfIter.mk j ik i i0) = G (c.steps (i0 + i) - c.steps i0)) :
    (selfInner c kk j).map F = (selfDts c kk).map G := by
  simp only [selfInner, selfDts, List.map_flatMap, List.map_map]
  apply List.flatMap_congr
  intro ik _
  apply List.flatMap_congr
  intro oi _
  apply List.map_congr_left
  intro i0 _
  exact h ik oi.2 i0

theorem selfCnt_eq (c : SelfConfig) (kk : ℕ) (dt : ℤ) :
    selfCnt c kk dt = (c.npart : ℚ) * ((selfContrib c kk dt : ℕ) : ℚ) := by
  unfold selfCnt selfIters
  rw [sum_bind_map]
  have h1 : ∀ j ∈ selfOrigins c,
      ((selfInner c kk j).map (fun it =>
        if selfDt c it = dt then ((selfWidth c it.j : ℕ) : ℚ) else 0)).sum
      = ((selfWidth c j : ℕ) : ℚ) * ((selfContrib c kk dt : ℕ) : ℚ) := by
    intro j _
    rw [selfInner_map c kk j _
      (fun d => if d = dt then ((selfWidth c j : ℕ) : ℚ) else 0)
      (fun ik i i0 => rfl)]
    rw [sum_ite_count]
    rfl
  rw [List.map_congr_left h1, List.sum_map_mul_right, selfWidth_sum, mul_comm]

theorem collCnt_eq (c : CollConfig) (kk : ℕ) (dt : ℤ) :
    collCnt c kk dt = ((collContrib c kk dt : ℕ) : ℚ) := by
  unfold collCnt collContrib
  have h : (collIters c kk).map (fun it => if collDt c it = dt then (1 : ℚ) else 0)
      = ((collIters c kk).map (collDt c)).map (fun d => if d = dt then (1 : ℚ) else 0) := by
    rw [List.map_map]
    rfl
  rw [h, sum_ite_count, one_mul]

/-- C8: the self engine counts particle-samples (it adds the particle
count of the current block for every contributing iteration, so the total
count is the total particle number times the number of contributing
(wave vector, grid pair, origin) iterations), whereas the collective
engine counts origins (it adds exactly 1 per contributing iteration). -/
theorem claim_C8 (cs : SelfConfig) (cc : CollConfig) (kks kkc : ℕ) (dts dtc : ℤ) :
    selfCnt cs kks dts = (cs.npart : ℚ) * ((selfContrib cs kks dts : ℕ) : ℚ) ∧
    collCnt cc kkc dtc = ((collContrib cc kkc dtc : ℕ) : ℚ) :=
  ⟨selfCnt_eq cs kks dts, collCnt_eq cc kkc dtc⟩

/-- Replace the norigins-derived skip attribute of a configuration. -/
def setSkip (c : SelfConfig) (s : ℕ) : SelfConfig := { c with skipAttr := s }

@[simp] theorem setSkip_nframes (c : SelfConfig) (s : ℕ) :
    (setSkip c s).nframes = c.nframes := rfl

@[simp] theorem setSkip_npart (c : SelfConfig) (s : ℕ) :
    (setSkip c s).npart = c.npart := rfl

@[simp] theorem setSkip_steps (c : SelfConfig) (s : ℕ) :
    (setSkip c s).steps = c.steps := rfl

@[simp] theorem setSkip_blockSize (c : SelfConfig) (s : ℕ) :
    (setSkip c s).blockSize = c.blockSize := rfl

@[simp] theorem setSkip_tgrid (c : SelfConfig) (s : ℕ) :
    (setSkip c s).tgrid = c.tgrid := rfl

@[simp] theorem setSkip_kselected (c : SelfConfig) (s : ℕ) :
    (setSkip c s).kselected = c.kselected := rfl

@[simp] theorem setSkip_tab (c : SelfConfig) (s : ℕ) :
    (setSkip c s).tab = c.tab := rfl

theorem selfUsedSkip_setSkip (c : SelfConfig) (s : ℕ) (h : 1 < c.blockSize) :
    selfUsedSkip (setSkip c s) = c.blockSize := by
  unfold selfUsedSkip setSkip
  exact if_pos h

/-- C10: when the trajectory block size exceeds 1 the origin stride of
SelfIntermediateScattering._compute is the block size and the
norigins-derived skip attribute has no effect on acf, cnt or the
normalized curve; when the block size is 1 the stride is the skip
attribute. -/
theorem claim_C10 (c c1 : SelfConfig) (s1 s2 : ℕ)
    (h : 1 < c.blockSize) (h1 : c1.blockSize = 1) :
    (selfUsedSkip c = c.blockSize ∧
      (∀ kk, selfAcf (setSkip c s1) kk = selfAcf (setSkip c s2) kk ∧
             selfCnt (setSkip c s1) kk = selfCnt (setSkip c s2) kk ∧
             selfValue (setSkip c s1) kk = selfValue (setSkip c s2) kk)) ∧
    selfUsedSkip c1 = c1.skipAttr := by
  constructor
  · have husk : selfUsedSkip c = c.blockSize := by
      unfold selfUsedSkip
      exact if_pos h
    have hiters : selfIters (setSkip c s1) = selfIters (setSkip c s2) := by
      funext kk
      unfold selfIters selfInner selfOrigins selfBlockCap
      rw [selfUsedSkip_setSkip c s1 h, selfUsedSkip_setSkip c s2 h]
      simp only [setSkip_nframes, setSkip_npart, setSkip_tgrid, setSkip_kselected]
    refine ⟨husk, fun kk => ?_⟩
    have hacf : selfAcf (setSkip c s1) kk = selfAcf (setSkip c s2) kk := by
      funext dt
      unfold selfAcf selfDt selfTerm selfWidth selfBlockCap
      rw [hiters]
      simp only [setSkip_npart, setSkip_steps, setSkip_tab]
    have hcnt : selfCnt (setSkip c s1) kk = selfCnt (setSkip c s2) kk := by
      funext dt
      unfold selfCnt selfDt selfWidth selfBlockCap
      rw [hiters]
      simp only [setSkip_npart, setSkip_steps]
    have hval : selfValue (setSkip c s1) kk = selfValue (setSkip c s2) kk := by
      unfold selfValue selfVnn selfTSorted selfKeys selfAcf selfCnt selfDt selfTerm selfWidth selfBlockCap
      rw [hiters]
      simp only [setSkip_npart, setSkip_steps, setSkip_tab]
    exact ⟨hacf, hcnt, hval⟩
  · unfold selfUsedSkip
    rw [if_neg (by omega)]

/-- A configuration with block size 2 (block-periodic trajectory). -/
def wSelfC10b : SelfConfig :=
  { nframes := 2, npart := 1, steps := fun _ => 0, blockSize := 2,
    skipAttr := 7, tgrid := [(0, 0)], kselected := [[fun _ => 0]],
    tab := fun _ _ _ _ _ => ⟨1, 0⟩ }

/-- A configuration with block size 1 (no block periodicity). -/
def wSelfC10a : SelfConfig :=
  { nframes := 2, npart := 1, steps := fun _ => 0, blockSize := 1,
    skipAttr := 3, tgrid := [(0, 0)], kselected := [[fun _ => 0]],
    tab := fun _ _ _ _ _ => ⟨1, 0⟩ }

theorem claim_C10_witness :
    1 < wSelfC10b.blockSize ∧ wSelfC10a.blockSize = 1 ∧
    ((selfUsedSkip wSelfC10b = wSelfC10b.blockSize ∧
      (∀ kk, selfAcf (setSkip wSelfC10b 3) kk = selfAcf (setSkip wSelfC10b 5) kk ∧
             selfCnt (setSkip wSelfC10b 3) kk = selfCnt (setSkip wSelfC10b 5) kk ∧
             selfValue (setSkip wSelfC10b 3) kk = selfValue (setSkip wSelfC10b 5) kk)) ∧
     selfUsedSkip wSelfC10a = wSelfC10a.skipAttr) :=
  ⟨by decide, by decide,
   claim_C10 wSelfC10b wSelfC10a 3 5 (by decide) (by decide)⟩

/-!
Structure factor engine (StructureFactor._compute in sk.py), with a fixed
simulation cell (is_cell_variable false, so no wave-vector rebuild). The
per-frame phase tables of the two filters are abstract inputs; samePos i
records whether pos_0[i] is pos_1[i]; field is the optional per-frame,
per-particle scalar weight.
-/

/-- Multiplication of a complex value by a rational scalar (the numpy
elementwise product with the real field array). -/
def CQ.scale (q : ℚ) (z : CQ) : CQ := ⟨q * z.re, q * z.im⟩

@[simp] theorem CQ.scale_mk (q a b : ℚ) : CQ.scale q ⟨a, b⟩ = ⟨q * a, q * b⟩ := rfl

/-- Configuration of a StructureFactor computation. -/
structure SkConfig where
  nsteps : ℕ
  skip : ℕ
  kgrid : List ℚ
  selection : List (List (Fin 3 → ℤ))
  npart0 : ℕ → ℕ
  npart1 : ℕ → ℕ
  expo0 : ℕ → ℕ → Fin 3 → ℤ → CQ
  expo1 : ℕ → ℕ → Fin 3 → ℤ → CQ
  samePos : ℕ → Bool
  field : Option (ℕ → ℕ → ℚ)

/-- The sampled frames: range(0, nsteps, skip). -/
def skFrames (c : SkConfig) : List ℕ := rangeStep 0 c.nsteps c.skip

/-- Per-particle product of per-axis phase factors of filter 0. -/
def skProd0 (c : SkConfig) (i p : ℕ) (ik : Fin 3 → ℤ) : CQ :=
  c.expo0 i p 0 (ik 0) * c.expo0 i p 1 (ik 1) * c.expo0 i p 2 (ik 2)

/-- Per-particle product of per-axis phase factors of filter 1. -/
def skProd1 (c : SkConfig) (i p : ℕ) (ik : Fin 3 → ℤ) : CQ :=
  c.expo1 i p 0 (ik 0) * c.expo1 i p 1 (ik 1) * c.expo1 i p 2 (ik 2)

/-- rho_0 of one frame and wave vector: the plain density amplitude, or
the field-weighted one when a scalar field is configured. -/
def skRho0 (c : SkConfig) (i : ℕ) (ik : Fin 3 → ℤ) : CQ :=
  match c.field with
  | none => sumOver (c.npart0 i) (fun p => skProd0 c i p ik)
  | some f => sumOver (c.npart0 i) (fun p => CQ.scale (f i p) (skProd0 c i p ik))

/-- rho_1: equal to rho_0 in the field branch and in the identical-species
branch, tabulated from the second filter otherwise. -/
def skRho1 (c : SkConfig) (i : ℕ) (ik : Fin 3 → ℤ) : CQ :=
  match c.field with
  | some _ => skRho0 c i ik
  | none =>
    if c.samePos i then skRho0 c i ik
    else sumOver (c.npart1 i) (fun p => skProd1 c i p ik)

/-- One iteration of the accumulation loops: frame i, shell index kk,
wave-index triple ik. -/
structure SkIter where
  i : ℕ
  kk : ℕ
  ik : Fin 3 → ℤ

/-- The sequential iteration order of the loops: for i in
range(0, nsteps, skip), for kk, knorm in enumerate(kgrid), for k in
selection[kk]. -/
def skIterList (c : SkConfig) : List SkIter :=
  (skFrames c).flatMap (fun i =>
    (List.range c.kgrid.length).flatMap (fun kk =>
      (c.selection.getD kk []).map (fun ik => SkIter.mk i kk ik)))

/-- The mutable accumulators rho_av, rho2_av and cnt, per shell index. -/
structure SkState where
  rhoAv : ℕ → CQ
  rho2Av : ℕ → CQ
  cnt : ℕ → ℕ

/-- Initial accumulators: complex zeros and zero counts. -/
def skInit : SkState := ⟨fun _ => 0, fun _ => 0, fun _ => 0⟩

/-- One loop iteration: rho2_av[kk] += rho_0 * conj(rho_1); cnt[kk] += 1;
rho_av[kk] += rho_0 only in the field branch. -/
def skStep (c : SkConfig) (st : SkState) (t : SkIter) : SkState :=
  { rhoAv := fun kk =>
      if kk = t.kk then
        match c.field with
        | none => st.rhoAv kk
        | some _ => st.rhoAv kk + skRho0 c t.i t.ik
      else st.rhoAv kk,
    rho2Av := fun kk =>
      if kk = t.kk then st.rho2Av kk + skRho0 c t.i t.ik * (skRho1 c t.i t.ik).conj
      else st.rho2Av kk,
    cnt := fun kk => if kk = t.kk then st.cnt kk + 1 else st.cnt kk }

/-- The accumulators after the whole loop. -/
def skFinal (c : SkConfig) : SkState := (skIterList c).foldl (skStep c) skInit

/-- Time-averaged particle count of filter 0 over all frames. -/
def skNpartAv0 (c : SkConfig) : ℚ :=
  ((List.range c.nsteps).map (fun i => (c.npart0 i : ℚ))).sum / (c.nsteps : ℚ)

/-- Time-averaged particle count of filter 1 over all frames. -/
def skNpartAv1 (c : SkConfig) : ℚ :=
  ((List.range c.nsteps).map (fun i => (c.npart1 i : ℚ))).sum / (c.nsteps : ℚ)

/-- value before the species normalization:
(rho2_av[kk]/cnt[kk] - rho_av[kk]*conj(rho_av[kk])/cnt[kk]**2).real. -/
def skValueNonorm (c : SkConfig) (kk : ℕ) : ℚ :=
  (((skFinal c).rho2Av kk).divQ ((skFinal c).cnt kk : ℚ) -
   ((skFinal c).rhoAv kk * ((skFinal c).rhoAv kk).conj).divQ
     (((skFinal c).cnt kk : ℚ) ^ 2)).re

/-- Final per-shell value: the unnormalized value divided by
sqrt(npart_0 * npart_1), the latter passed in as norm. -/
def skValue (c : SkConfig) (norm : ℚ) (kk : ℕ) : ℚ := skValueNonorm c kk / norm

/-- The accumulated increment of rho2_av for one iteration. -/
def skInc2 (c : SkConfig) (t : SkIter) : CQ :=
  skRho0 c t.i t.ik * (skRho1 c t.i t.ik).conj

/-- The accumulated increment of rho_av for one iteration (zero when no
field is configured, because the branch never touches rho_av). -/
def skIncAv (c : SkConfig) (t : SkIter) : CQ :=
  match c.field with
  | none => 0
  | some _ => skRho0 c t.i t.ik

/-- Closed-form accumulated rho2 of shell kk: the sum over sampled frames
and selected wave vectors of rho_0 * conj(rho_1). -/
def skRho2Closed (c : SkConfig) (kk : ℕ) : CQ :=
  sumC ((skFrames c).flatMap (fun i =>
    (c.selection.getD kk []).map (fun ik => skRho0 c i ik * (skRho1 c i ik).conj)))

/-- Closed-form accumulated rho_av of shell kk. -/
def skRhoAvClosed (c : SkConfig) (kk : ℕ) : CQ :=
  sumC ((skFrames c).flatMap (fun i =>
    (c.selection.getD kk []).map (fun ik => skIncAv c (SkIter.mk i kk ik))))

/-- Closed-form sample count of shell kk: the number of selected wave
vectors summed over sampled frames. -/
def skCntClosed (c : SkConfig) (kk : ℕ) : ℕ :=
  ((skFrames c).map (fun _ => (c.selection.getD kk []).length)).sum

theorem skFoldl_rho2 (c : SkConfig) :
    ∀ (l : List SkIter) (st : SkState) (kk : ℕ),
      (l.foldl (skStep c) st).rho2Av kk =
        st.rho2Av kk + sumC ((l.filter (fun t => t.kk == kk)).map (skInc2 c))
  | [], st, kk => by
    rw [List.foldl_nil, List.filter_nil, List.map_nil, sumC_nil, CQ.add_zero]
  | t :: l, st, kk => by
    rw [List.foldl_cons, skFoldl_rho2 c l (skStep c st t) kk]
    by_cases h : t.kk = kk
    · rw [List.filter_cons_of_pos (by simp [h])]
      simp only [skStep, List.map_cons, sumC_cons]
      rw [if_pos h.symm, CQ.add_assoc]
      rfl
    · rw [List.filter_cons_of_neg (by simp [h])]
      simp only [skStep]
      rw [if_neg (fun hh => h hh.symm)]

theorem skFoldl_rhoAv (c : SkConfig) :
    ∀ (l : List SkIter) (st : SkState) (kk : ℕ),
      (l.foldl (skStep c) st).rhoAv kk =
        st.rhoAv kk + sumC ((l.filter (fun t => t.kk == kk)).map (skIncAv c))
  | [], st, kk => by
    rw [List.foldl_nil, List.filter_nil, List.map_nil, sumC_nil, CQ.add_zero]
  | t :: l, st, kk => by
    rw [List.foldl_cons, skFoldl_rhoAv c l (skStep c st t) kk]
    by_cases h : t.kk = kk
    · rw [List.filter_cons_of_pos (by simp [h])]
      simp only [skStep, List.map_cons, sumC_cons]
      rw [if_pos h.symm]
      cases hf : c.field with
      | none =>
        simp only [skIncAv, hf]
        rw [CQ.zero_add]
      | some f =>
        simp only [skIncAv, hf]
        rw [CQ.add_assoc]
    · rw [List.filter_cons_of_neg (by simp [h])]
      simp only [skStep]
      rw [if_neg (fun hh => h hh.symm)]

theorem skFoldl_cnt (c : SkConfig) :
    ∀ (l : List SkIter) (st : SkState) (kk : ℕ),
      (l.foldl (skStep c) st).cnt kk =
        st.cnt kk + (l.filter (fun t => t.kk == kk)).length
  | [], st, kk => by
    rw [List.foldl_nil, List.filter_nil, List.length_nil, Nat.add_zero]
  | t :: l, st, kk => by
    rw [List.foldl_cons, skFoldl_cnt c l (skStep c st t) kk]
    by_cases h : t.kk = kk
    · rw [List.filter_cons_of_pos (by simp [h])]
      simp only [skStep, List.length_cons]
      rw [if_pos h.symm]
      omega
    · rw [List.filter_cons_of_neg (by simp [h])]
      simp only [skStep]
      rw [if_neg (fun hh => h hh.symm)]

theorem filter_flatMap {α β : Type} (l : List α) (f : α → List β) (p : β → Bool) :
    (l.flatMap f).filter p = l.flatMap (fun a => (f a).filter p) := by
  induction l with
  | nil => rfl
  | cons a t ih => rw [List.flatMap_cons, List.filter_append, ih, List.flatMap_cons]

theorem range_flatMap_single {β : Type} (n k : ℕ) (f : ℕ → List β) (hk : k < n)
    (h : ∀ m, m ≠ k → f m = []) : (List.range n).flatMap f = f k := by
  induction n with
  | zero => omega
  | succ n ih =>
    rw [List.range_succ, List.flatMap_append, List.flatMap_cons, List.flatMap_nil,
      List.append_nil]
    rcases Nat.lt_or_ge k n with hlt | hge
    · rw [ih hlt, h n (by omega)]
      rw [List.append_nil]
    · have hkn : k = n := by omega
      subst hkn
      have hnil : (List.range k).flatMap f = [] := by
        apply List.flatMap_eq_nil_iff.mpr
        intro m hm
        exact h m (by have := List.mem_range.mp hm; omega)
      rw [hnil, List.nil_append]

/-- The iterations of the loop that touch shell kk are exactly the
per-frame scans of the wave vectors selected for that shell. -/
theorem skIterList_filter (c : SkConfig) (kk : ℕ) (hkk : kk < c.kgrid.length) :
    (skIterList c).filter (fun t => t.kk == kk) =
      (skFrames c).flatMap (fun i =>
        (c.selection.getD kk []).map (fun ik => SkIter.mk i kk ik)) := by
  unfold skIterList
  rw [filter_flatMap]
  apply List.flatMap_congr
  intro i _
  rw [filter_flatMap]
  rw [range_flatMap_single c.kgrid.length kk _ hkk]
  · rw [List.filter_map]
    have : ((c.selection.getD kk []).filter
        ((fun t : SkIter => t.kk == kk) ∘ (fun ik => SkIter.mk i kk ik)))
        = (c.selection.getD kk []).filter (fun _ => true) := by
      apply List.filter_congr
      intro ik _
      simp [Function.comp]
    rw [this, List.filter_true]
  · intro m hm
    rw [List.filter_map]
    have : ((c.selection.getD m []).filter
        ((fun t : SkIter => t.kk == kk) ∘ (fun ik => SkIter.mk i m ik)))
        = (c.selection.getD m []).filter (fun _ => false) := by
      apply List.filter_congr
      intro ik _
      simp [Function.comp, hm]
    rw [this, List.filter_false, List.map_nil]

theorem sumC_eq_zero {l : List CQ} (h : ∀ z ∈ l, z = 0) : sumC l = 0 := by
  induction l with
  | nil => rfl
  | cons a t ih =>
    rw [sumC_cons, h a (List.mem_cons_self a t), ih (fun z hz => h z (List.mem_cons_of_mem a hz)),
      CQ.add_zero]

theorem CQ.sub_zero (a : CQ) : a - 0 = a := by
  ext <;> simp

theorem divQ_mul_conj_sq (z : CQ) (q : ℚ) :
    (z * z.conj).divQ (q ^ 2) = (z.divQ q) * (z.divQ q).conj := by
  ext <;> simp <;> ring

theorem skFinal_rho2 (c : SkConfig) (kk : ℕ) (hkk : kk < c.kgrid.length) :
    (skFinal c).rho2Av kk = skRho2Closed c kk := by
  unfold skFinal skRho2Closed
  rw [skFoldl_rho2 c (skIterList c) skInit kk, skIterList_filter c kk hkk,
    List.map_flatMap]
  rw [show skInit.rho2Av kk = 0 from rfl, CQ.zero_add]
  apply congrArg
  apply List.flatMap_congr
  intro i _
  rw [List.map_map]
  rfl

theorem skFinal_rhoAv (c : SkConfig) (kk : ℕ) (hkk : kk < c.kgrid.length) :
    (skFinal c).rhoAv kk = skRhoAvClosed c kk := by
  unfold skFinal skRhoAvClosed
  rw [skFoldl_rhoAv c (skIterList c) skInit kk, skIterList_filter c kk hkk,
    List.map_flatMap]
  rw [show skInit.rhoAv kk = 0 from rfl, CQ.zero_add]
  apply congrArg
  apply List.flatMap_congr
  intro i _
  rw [List.map_map]
  rfl

theorem skFinal_cnt (c : SkConfig) (kk : ℕ) (hkk : kk < c.kgrid.length) :
    (skFinal c).cnt kk = skCntClosed c kk := by
  unfold skFinal skCntClosed
  rw [skFoldl_cnt c (skIterList c) skInit kk, skIterList_filter c kk hkk,
    List.length_flatMap]
  rw [show skInit.cnt kk = 0 from rfl, Nat.zero_add]
  apply congrArg
  apply List.map_congr_left
  intro i _
  simp [Function.comp]

/-- C2: the final per-shell value of StructureFactor._compute is
[avg(rho0 rho1*) - avg(rho0) avg(rho1)*] / norm where norm is the
nonnegative square root of the product of the time-averaged particle
counts of the two filters; and when no scalar field is configured the
rho_av accumulator of every shell stays exactly zero at every point of
the loop, so the value reduces to avg(rho0 rho1*) / norm. -/
theorem claim_C2 (c : SkConfig) (norm : ℚ) (kk : ℕ) (hkk : kk < c.kgrid.length)
    (hnorm : norm * norm = skNpartAv0 c * skNpartAv1 c) (hpos : 0 ≤ norm) :
    (skValue c norm kk =
      ((skRho2Closed c kk).divQ ((skCntClosed c kk : ℕ) : ℚ) -
       ((skRhoAvClosed c kk).divQ ((skCntClosed c kk : ℕ) : ℚ)) *
       ((skRhoAvClosed c kk).divQ ((skCntClosed c kk : ℕ) : ℚ)).conj).re / norm) ∧
    (c.field = none →
      (∀ pre suf, skIterList c = pre ++ suf →
        (pre.foldl (skStep c) skInit).rhoAv kk = 0) ∧
      skValue c norm kk =
        ((skRho2Closed c kk).divQ ((skCntClosed c kk : ℕ) : ℚ)).re / norm) := by
  have h1 : skValue c norm kk =
      ((skRho2Closed c kk).divQ ((skCntClosed c kk : ℕ) : ℚ) -
       ((skRhoAvClosed c kk).divQ ((skCntClosed c kk : ℕ) : ℚ)) *
       ((skRhoAvClosed c kk).divQ ((skCntClosed c kk : ℕ) : ℚ)).conj).re / norm := by
    unfold skValue skValueNonorm
    rw [skFinal_rho2 c kk hkk, skFinal_rhoAv c kk hkk, skFinal_cnt c kk hkk,
      divQ_mul_conj_sq]
  refine ⟨h1, fun hf => ⟨?_, ?_⟩⟩
  · intro pre suf _
    rw [skFoldl_rhoAv c pre skInit kk]
    have hz : ∀ t ∈ pre.filter (fun t => t.kk == kk), skIncAv c t = 0 := by
      intro t _
      simp [skIncAv, hf]
    rw [List.map_congr_left hz]
    rw [sumC_eq_zero (fun z hz => by
      rcases List.mem_map.mp hz with ⟨t, _, ht⟩
      exact ht.symm)]
    exact CQ.add_zero 0
  · have hAz : skRhoAvClosed c kk = 0 := by
      unfold skRhoAvClosed
      apply sumC_eq_zero
      intro z hz
      rcases List.mem_flatMap.mp hz with ⟨i, _, hmem⟩
      rcases List.mem_map.mp hmem with ⟨ik, _, hik⟩
      rw [← hik]
      simp [skIncAv, hf]
    rw [h1, hAz]
    have hzero : ((0 : CQ).divQ ((skCntClosed c kk : ℕ) : ℚ)) *
        ((0 : CQ).divQ ((skCntClosed c kk : ℕ) : ℚ)).conj = 0 := by
      ext <;> simp
    rw [hzero, CQ.sub_zero]

/-- A one-frame, one-particle, single-shell structure factor run without
field, with unit phase factors and unit normalization. -/
def wSkC2 : SkConfig :=
  { nsteps := 1, skip := 1, kgrid := [1], selection := [[fun _ => 0]],
    npart0 := fun _ => 1, npart1 := fun _ => 1,
    expo0 := fun _ _ _ _ => ⟨1, 0⟩, expo1 := fun _ _ _ _ => ⟨1, 0⟩,
    samePos := fun _ => true, field := none }

theorem claim_C2_witness :
    0 < wSkC2.kgrid.length ∧
    ((1 : ℚ) * 1 = skNpartAv0 wSkC2 * skNpartAv1 wSkC2) ∧
    (0 ≤ (1 : ℚ)) ∧
    ((skValue wSkC2 1 0 =
      ((skRho2Closed wSkC2 0).divQ ((skCntClosed wSkC2 0 : ℕ) : ℚ) -
       ((skRhoAvClosed wSkC2 0).divQ ((skCntClosed wSkC2 0 : ℕ) : ℚ)) *
       ((skRhoAvClosed wSkC2 0).divQ ((skCntClosed wSkC2 0 : ℕ) : ℚ)).conj).re / 1) ∧
    (wSkC2.field = none →
      (∀ pre suf, skIterList wSkC2 = pre ++ suf →
        (pre.foldl (skStep wSkC2) skInit).rhoAv 0 = 0) ∧
      skValue wSkC2 1 0 =
        ((skRho2Closed wSkC2 0).divQ ((skCntClosed wSkC2 0 : ℕ) : ℚ)).re / 1)) := by
  have hnorm : (1 : ℚ) * 1 = skNpartAv0 wSkC2 * skNpartAv1 wSkC2 := by
    simp [skNpartAv0, skNpartAv1, wSkC2, List.range_succ]
  exact ⟨by decide, hnorm, zero_le_one,
    claim_C2 wSkC2 1 0 (by decide) hnorm zero_le_one⟩

/-!
Optimized structure factor engine (StructureFactorOptimized._compute in
sk.py). The external fortran kernel sk_bare is modelled by its assumed
contract: for each wave-index triple it returns the sum over particles of
the product of per-axis phase factors from the phase table it is given.
The engine passes only the phase table of filter 0 to the kernel and uses
the same reduction for both factors of rho2_av.
-/

/-- The assumed contract of the external sk_bare kernel. -/
def skBare (np : ℕ) (expo : ℕ → Fin 3 → ℤ → CQ) (ik : Fin 3 → ℤ) : CQ :=
  sumOver np (fun p => expo p 0 (ik 0) * expo p 1 (ik 1) * expo p 2 (ik 2))

/-- rho2_av of shell kk accumulated by the optimized engine: per frame it
adds sum(rho * conj(rho)) with rho = sk_bare(expo_0, ikvec). -/
def skOptRho2 (c : SkConfig) (kk : ℕ) : CQ :=
  sumC ((skFrames c).flatMap (fun i =>
    (c.selection.getD kk []).map (fun ik =>
      skBare (c.npart0 i) (c.expo0 i) ik * (skBare (c.npart0 i) (c.expo0 i) ik).conj)))

/-- cnt of shell kk accumulated by the optimized engine: rho.shape[0],
the number of selected wave vectors, per frame. -/
def skOptCnt (c : SkConfig) (kk : ℕ) : ℕ :=
  ((skFrames c).map (fun _ => (c.selection.getD kk []).length)).sum

/-- Unnormalized value of the optimized engine; its rho_av accumulators
are initialized to complex zero and never touched by the loop. -/
def skOptValueNonorm (c : SkConfig) (kk : ℕ) : ℚ :=
  ((skOptRho2 c kk).divQ ((skOptCnt c kk : ℕ) : ℚ) -
   ((0 : CQ) * (0 : CQ).conj).divQ (((skOptCnt c kk : ℕ) : ℚ) ^ 2)).re

/-- Final per-shell value of the optimized engine. -/
def skOptValue (c : SkConfig) (norm : ℚ) (kk : ℕ) : ℚ :=
  skOptValueNonorm c kk / norm

theorem skRhoAvClosed_none (c : SkConfig) (kk : ℕ) (hf : c.field = none) :
    skRhoAvClosed c kk = 0 := by
  unfold skRhoAvClosed
  apply sumC_eq_zero
  intro z hz
  rcases List.mem_flatMap.mp hz with ⟨i, _, hmem⟩
  rcases List.mem_map.mp hmem with ⟨ik, _, hik⟩
  rw [← hik]
  simp [skIncAv, hf]

/-- A one-frame, one-shell, one-particle run with distinct filters whose
phase tables differ: filter 0 has unit phases, filter 1 has phase i. -/
def wC3 : SkConfig :=
  { nsteps := 1, skip := 1, kgrid := [1], selection := [[fun _ => 0]],
    npart0 := fun _ => 1, npart1 := fun _ => 1,
    expo0 := fun _ _ _ _ => ⟨1, 0⟩, expo1 := fun _ _ _ _ => ⟨0, 1⟩,
    samePos := fun _ => false, field := none }

/-- C3 fails on distinct filters: the optimized engine reduces only the
filter-0 phase table (rho_1 is set to the same rho as rho_0, the source
itself notes cross correlation wont work), so on a distinct-filter input
the two engines accumulate different rho2 and return different values. -/
theorem claim_C3_counterexample :
    skOptValue wC3 1 0 = 1 ∧ skValue wC3 1 0 = 0 ∧
    skOptValue wC3 1 0 ≠ skValue wC3 1 0 ∧
    skOptRho2 wC3 0 ≠ (skFinal wC3).rho2Av 0 := by
  have hopt : skOptValue wC3 1 0 = 1 := by
    simp [skOptValue, skOptValueNonorm, skOptRho2, skOptCnt, skBare,
      skFrames, rangeStep, sumOver, sumC, wC3, List.range_succ]
  have hopt2 : skOptRho2 wC3 0 = ⟨1, 0⟩ := by
    simp [skOptRho2, skBare, skFrames, rangeStep, sumOver, sumC, wC3,
      List.range_succ]
  have href2 : (skFinal wC3).rho2Av 0 = ⟨0, 1⟩ := by
    rw [skFinal_rho2 wC3 0 (by decide)]
    simp [skRho2Closed, skRho0, skRho1, skProd0, skProd1, skFrames,
      rangeStep, sumOver, sumC, wC3, List.range_succ]
  have href : skValue wC3 1 0 = 0 := by
    unfold skValue skValueNonorm
    rw [href2, skFinal_rhoAv wC3 0 (by decide), skFinal_cnt wC3 0 (by decide),
      skRhoAvClosed_none wC3 0 rfl]
    simp [skCntClosed, skFrames, rangeStep, wC3, List.range_succ]
  refine ⟨hopt, href, ?_, ?_⟩
  · rw [hopt, href]
    exact one_ne_zero
  · rw [hopt2, href2]
    intro h
    have := congrArg CQ.re h
    simp at this

/-- C3 amended: with no scalar field and identical filters (pos_1 is
pos_0 at every sampled frame), the optimized engine accumulates the same
rho2 and the same count as the reference engine, so the per-shell values
are equal, assuming sk_bare satisfies its contract. -/
theorem claim_C3_amended (c : SkConfig) (norm : ℚ) (kk : ℕ)
    (hkk : kk < c.kgrid.length) (hf : c.field = none)
    (hsame : ∀ i, c.samePos i = true) :
    skOptRho2 c kk = (skFinal c).rho2Av kk ∧
    skOptCnt c kk = (skFinal c).cnt kk ∧
    skOptValue c norm kk = skValue c norm kk := by
  have hbare : ∀ (i : ℕ) (ik : Fin 3 → ℤ),
      skBare (c.npart0 i) (c.expo0 i) ik = skRho0 c i ik := by
    intro i ik
    unfold skBare skRho0 skProd0
    rw [hf]
  have hrho1 : ∀ (i : ℕ) (ik : Fin 3 → ℤ), skRho1 c i ik = skRho0 c i ik := by
    intro i ik
    simp only [skRho1, hf, hsame i, if_true]
  have h2 : skOptRho2 c kk = (skFinal c).rho2Av kk := by
    rw [skFinal_rho2 c kk hkk]
    unfold skOptRho2 skRho2Closed
    apply congrArg
    apply List.flatMap_congr
    intro i _
    apply List.map_congr_left
    intro ik _
    rw [hbare i ik, hrho1 i ik]
  have hcnt : skOptCnt c kk = (skFinal c).cnt kk := by
    rw [skFinal_cnt c kk hkk]
    rfl
  have hval : skOptValue c norm kk = skValue c norm kk := by
    unfold skOptValue skOptValueNonorm skValue skValueNonorm
    rw [h2, hcnt, skFinal_rhoAv c kk hkk, skRhoAvClosed_none c kk hf]
  exact ⟨h2, hcnt, hval⟩

/-- The counterexample configuration with the filters made identical. -/
def wC3s : SkConfig :=
  { nsteps := 1, skip := 1, kgrid := [1], selection := [[fun _ => 0]],
    npart0 := fun _ => 1, npart1 := fun _ => 1,
    expo0 := fun _ _ _ _ => ⟨1, 0⟩, expo1 := fun _ _ _ _ => ⟨1, 0⟩,
    samePos := fun _ => true, field := none }

theorem claim_C3_amended_witness :
    0 < wC3s.kgrid.length ∧ wC3s.field = none ∧ (∀ i, wC3s.samePos i = true) ∧
    (skOptRho2 wC3s 0 = (skFinal wC3s).rho2Av 0 ∧
     skOptCnt wC3s 0 = (skFinal wC3s).cnt 0 ∧
     skOptValue wC3s 1 0 = skValue wC3s 1 0) :=
  ⟨by decide, rfl, fun _ => rfl,
   claim_C3_amended wC3s 1 0 (by decide) rfl (fun _ => rfl)⟩

/-!
Backend availability of the optimized engine. The body of
StructureFactorOptimized._compute first attempts the import of the
fortran wrapper module; on ImportError it logs an error and re-raises,
producing no values; only on success does the accumulation run. The
outcome of the import is modelled by an optional reduction kernel.
-/

/-- The type of the accelerated reduction provided by the wrapper module. -/
def SkBackend : Type := ℕ → (ℕ → Fin 3 → ℤ → CQ) → (Fin 3 → ℤ) → CQ

/-- rho2_av of shell kk computed with an arbitrary reduction kernel b in
place of sk_bare. -/
def skOptRho2With (b : SkBackend) (c : SkConfig) (kk : ℕ) : CQ :=
  sumC ((skFrames c).flatMap (fun i =>
    (c.selection.getD kk []).map (fun ik =>
      b (c.npart0 i) (c.expo0 i) ik * (b (c.npart0 i) (c.expo0 i) ik).conj)))

/-- Per-shell value list computed with kernel b. -/
def skOptValuesWith (b : SkBackend) (c : SkConfig) (norm : ℚ) : List ℚ :=
  (List.range c.kgrid.length).map (fun kk =>
    ((skOptRho2With b c kk).divQ ((skOptCnt c kk : ℕ) : ℚ) -
     ((0 : CQ) * (0 : CQ).conj).divQ (((skOptCnt c kk : ℕ) : ℚ) ^ 2)).re / norm)

/-- StructureFactorOptimized._compute including the import step: the
first component is the log, the second the outcome. A missing backend is
logged and the ImportError is re-raised before any value is produced. -/
def skOptCompute (ob : Option SkBackend) (c : SkConfig) (norm : ℚ) :
    List String × Except Unit (List ℚ) :=
  match ob with
  | none => (["f90 wrapper missing or not functioning"], Except.error ())
  | some b => ([], Except.ok (skOptValuesWith b c norm))

/-- C5: with the fortran module unavailable the optimized engine logs the
error message and re-raises (the outcome is the error, never a value
list, and in particular never the reference computation); with the module
available no error is raised and the values come from the provided
kernel. -/
theorem claim_C5 (c : SkConfig) (norm : ℚ) :
    (skOptCompute none c norm).1 = ["f90 wrapper missing or not functioning"] ∧
    (skOptCompute none c norm).2 = Except.error () ∧
    (∀ b : SkBackend,
      (skOptCompute (some b) c norm).1 = [] ∧
      (skOptCompute (some b) c norm).2 = Except.ok (skOptValuesWith b c norm)) :=
  ⟨rfl, rfl, fun _ => ⟨rfl, rfl⟩⟩

/-!
Discrete time grid builder (_setup_t_grid in correlation.py): collect all
realizable (offset, sample-lag) pairs keyed by their step difference, keep
the first pair found per difference, then template-match the requested
times (rounded to step units) against the available differences, dedup
and sort, and look the matched differences up.
-/

/-- Python 3 round (round half to even) on a rational, modelling
int(round(t / timestep)). -/
def pyRound (q : ℚ) : ℤ :=
  if q - (⌊q⌋ : ℚ) < 1 / 2 then ⌊q⌋
  else if 1 / 2 < q - (⌊q⌋ : ℚ) then ⌊q⌋ + 1
  else if ⌊q⌋ % 2 = 0 then ⌊q⌋ else ⌊q⌋ + 1

/-- steps[i] - steps[off]. -/
def osKey (steps : List ℤ) (off i : ℕ) : ℤ := steps.getD i 0 - steps.getD off 0

/-- The (off, i) index pairs scanned when building off_samp, in loop
order: for off in range(block_period), for i in
range(off, len(steps) - off). -/
def osPairs (steps : List ℤ) (bp : ℕ) : List (ℕ × ℕ) :=
  (List.range bp).flatMap (fun off =>
    (List.range' off (steps.length - off - off)).map (fun i => (off, i)))

/-- Insert into the off_samp association list only when the step
difference is not present yet. -/
def osInsert (steps : List ℤ) (m : List (ℤ × ℕ × ℕ)) (oi : ℕ × ℕ) :
    List (ℤ × ℕ × ℕ) :=
  if osKey steps oi.1 oi.2 ∈ m.map Prod.fst then m
  else m ++ [(osKey steps oi.1 oi.2, oi.1, oi.2 - oi.1)]

/-- off_samp: step difference -> (offset, sample lag), first found wins. -/
def offSamp (steps : List ℤ) (bp : ℕ) : List (ℤ × ℕ × ℕ) :=
  (osPairs steps bp).foldl (osInsert steps) []

/-- Python min(entry, key=lambda x: abs(x - t)): first minimizer. -/
def argminAbs (entry : List ℤ) (t : ℤ) : ℤ :=
  match entry with
  | [] => 0
  | e :: es =>
    es.foldl (fun best x => if (x - t).natAbs < (best - t).natAbs then x else best) e

/-- The realized step difference of an (offset, lag) value. -/
def keyOfVal (steps : List ℤ) (v : ℕ × ℕ) : ℤ :=
  steps.getD (v.1 + v.2) 0 - steps.getD v.1 0

/-- _setup_t_grid: build off_samp, round the requested times to step
units, template-match them against the realizable differences (dedup and
sort as Python set plus sorted do), and return the matched pairs. -/
def setupTGrid (steps : List ℤ) (bp : ℕ) (timestep : ℚ) (tgrid : List ℚ) :
    List (ℕ × ℕ) :=
  (sortKeysZ ((sortKeysZ (tgrid.map (fun t => pyRound (t / timestep)))).map
    (fun t => argminAbs (sortKeysZ ((offSamp steps bp).map Prod.fst)) t))).map
    (fun k => ((offSamp steps bp).lookup k).getD (0, 0))

theorem osPairs_le (steps : List ℤ) (bp : ℕ) :
    ∀ oi ∈ osPairs steps bp, oi.1 ≤ oi.2 := by
  intro oi hoi
  rcases List.mem_flatMap.mp hoi with ⟨off, _, hmem⟩
  rcases List.mem_map.mp hmem with ⟨i, hi, hoi2⟩
  rw [← hoi2]
  exact (List.mem_range'_1.mp hi).1

theorem osFold_inv (steps : List ℤ) :
    ∀ (l : List (ℕ × ℕ)) (m : List (ℤ × ℕ × ℕ)),
      (∀ oi ∈ l, oi.1 ≤ oi.2) → (∀ kv ∈ m, keyOfVal steps kv.2 = kv.1) →
      ∀ kv ∈ l.foldl (osInsert steps) m, keyOfVal steps kv.2 = kv.1
  | [], _, _, hm, kv, hkv => hm kv hkv
  | oi :: l, m, hl, hm, kv, hkv => by
    rw [List.foldl_cons] at hkv
    refine osFold_inv steps l (osInsert steps m oi)
      (fun x hx => hl x (List.mem_cons_of_mem oi hx)) ?_ kv hkv
    intro kv2 hkv2
    unfold osInsert at hkv2
    by_cases h : osKey steps oi.1 oi.2 ∈ m.map Prod.fst
    · rw [if_pos h] at hkv2
      exact hm kv2 hkv2
    · rw [if_neg h] at hkv2
      rcases List.mem_append.mp hkv2 with h2 | h2
      · exact hm kv2 h2
      · have he : kv2 = (osKey steps oi.1 oi.2, oi.1, oi.2 - oi.1) :=
          List.mem_singleton.mp h2
        subst he
        show keyOfVal steps (oi.1, oi.2 - oi.1) = osKey steps oi.1 oi.2
        unfold keyOfVal osKey
        have hle := hl oi (List.mem_cons_self oi l)
        simp only
        rw [Nat.add_sub_cancel' hle]

theorem offSamp_inv (steps : List ℤ) (bp : ℕ) :
    ∀ kv ∈ offSamp steps bp, keyOfVal steps kv.2 = kv.1 :=
  osFold_inv steps (osPairs steps bp) [] (osPairs_le steps bp) (fun _ h => absurd h (List.not_mem_nil _))

theorem osFold_keys_nodup (steps : List ℤ) :
    ∀ (l : List (ℕ × ℕ)) (m : List (ℤ × ℕ × ℕ)),
      (m.map Prod.fst).Nodup →
      ((l.foldl (osInsert steps) m).map Prod.fst).Nodup
  | [], _, hm => hm
  | oi :: l, m, hm => by
    rw [List.foldl_cons]
    refine osFold_keys_nodup steps l (osInsert steps m oi) ?_
    unfold osInsert
    by_cases h : osKey steps oi.1 oi.2 ∈ m.map Prod.fst
    · rw [if_pos h]
      exact hm
    · rw [if_neg h, List.map_append]
      rw [List.nodup_append]
      refine ⟨hm, List.nodup_singleton _, ?_⟩
      intro a ha hb
      have : a = osKey steps oi.1 oi.2 := by
        simpa using hb
      exact h (this ▸ ha)

theorem offSamp_keys_nodup (steps : List ℤ) (bp : ℕ) :
    ((offSamp steps bp).map Prod.fst).Nodup :=
  osFold_keys_nodup steps (osPairs steps bp) [] List.nodup_nil

theorem os_lookup_mem :
    ∀ (os : List (ℤ × ℕ × ℕ)) (k : ℤ), k ∈ os.map Prod.fst →
      ∃ v, os.lookup k = some v ∧ (k, v) ∈ os
  | [], k, h => absurd h (List.not_mem_nil k)
  | (k2, v2) :: t, k, h => by
    by_cases he : k = k2
    · subst he
      refine ⟨v2, ?_, List.mem_cons_self _ t⟩
      simp [List.lookup]
    · have hmem : k ∈ t.map Prod.fst := by
        rw [List.map_cons] at h
        rcases List.mem_cons.mp h with h2 | h2
        · exact absurd h2 he
        · exact h2
      rcases os_lookup_mem t k hmem with ⟨v, hl, hm⟩
      refine ⟨v, ?_, List.mem_cons_of_mem _ hm⟩
      simpa [List.lookup, beq_false_of_ne he] using hl

theorem argmin_foldl_mem (t : ℤ) :
    ∀ (es : List ℤ) (b : ℤ),
      es.foldl (fun best x => if (x - t).natAbs < (best - t).natAbs then x else best) b ∈ b :: es
  | [], b => List.mem_singleton.mpr rfl
  | x :: es, b => by
    rw [List.foldl_cons]
    have h := argmin_foldl_mem t es (if (x - t).natAbs < (b - t).natAbs then x else b)
    rcases List.mem_cons.mp h with h2 | h2
    · rw [h2]
      by_cases hc : (x - t).natAbs < (b - t).natAbs
      · rw [if_pos hc]
        exact List.mem_cons_of_mem _ (List.mem_cons_self x es)
      · rw [if_neg hc]
        exact List.mem_cons_self b (x :: es)
    · exact List.mem_cons_of_mem _ (List.mem_cons_of_mem _ h2)

theorem argmin_foldl_le (t : ℤ) :
    ∀ (es : List ℤ) (b : ℤ),
      ((es.foldl (fun best x => if (x - t).natAbs < (best - t).natAbs then x else best) b - t).natAbs
        ≤ (b - t).natAbs) ∧
      ∀ x ∈ es,
        ((es.foldl (fun best x => if (x - t).natAbs < (best - t).natAbs then x else best) b - t).natAbs
          ≤ (x - t).natAbs)
  | [], b => ⟨Nat.le_refl _, fun x hx => absurd hx (List.not_mem_nil x)⟩
  | x :: es, b => by
    rw [List.foldl_cons]
    have ih := argmin_foldl_le t es (if (x - t).natAbs < (b - t).natAbs then x else b)
    have hstep_b : ((if (x - t).natAbs < (b - t).natAbs then x else b) - t).natAbs ≤ (b - t).natAbs := by
      by_cases hc : (x - t).natAbs < (b - t).natAbs
      · rw [if_pos hc]
        omega
      · rw [if_neg hc]
    have hstep_x : ((if (x - t).natAbs < (b - t).natAbs then x else b) - t).natAbs ≤ (x - t).natAbs := by
      by_cases hc : (x - t).natAbs < (b - t).natAbs
      · rw [if_pos hc]
      · rw [if_neg hc]
        omega
    refine ⟨Nat.le_trans ih.1 hstep_b, ?_⟩
    intro y hy
    rcases List.mem_cons.mp hy with h2 | h2
    · rw [h2]
      exact Nat.le_trans ih.1 hstep_x
    · exact ih.2 y h2

/-- When the target is itself one of the entries, the first minimizer of
abs(x - t) is the target (the distance 0 is uniquely attained). -/
theorem argminAbs_self {entry : List ℤ} {d : ℤ} (hd : d ∈ entry) :
    argminAbs entry d = d := by
  cases entry with
  | nil => cases hd
  | cons e es =>
    show es.foldl (fun best x => if (x - d).natAbs < (best - d).natAbs then x else best) e = d
    have hmin := argmin_foldl_le d es e
    have hle : ((es.foldl (fun best x => if (x - d).natAbs < (best - d).natAbs then x else best) e - d).natAbs ≤ 0) := by
      rcases List.mem_cons.mp hd with h | h
      · have h0 : (e - d).natAbs = 0 := by
          rw [← h]
          simp
        exact Nat.le_trans hmin.1 (Nat.le_of_eq h0)
      · have := hmin.2 d h
        simpa using this
    have hz : (es.foldl (fun best x => if (x - d).natAbs < (best - d).natAbs then x else best) e - d) = 0 :=
      Int.natAbs_eq_zero.mp (Nat.le_zero.mp hle)
    omega

theorem argminAbs_mem {entry : List ℤ} (hne : entry ≠ []) (t : ℤ) :
    argminAbs entry t ∈ entry := by
  cases entry with
  | nil => exact absurd rfl hne
  | cons e es =>
    show es.foldl (fun best x => if (x - t).natAbs < (best - t).natAbs then x else best) e ∈ e :: es
    exact argmin_foldl_mem t es e

theorem sortKeysZ_nodup (l : List ℤ) : (sortKeysZ l).Nodup :=
  ((List.perm_insertionSort _ l.dedup).nodup_iff).mpr l.nodup_dedup

/-- C4: the grid returned by _setup_t_grid has no duplicate
(offset, lag) pair, and every requested time whose rounded step lag is
exactly realizable in the step sequence yields a grid pair whose realized
step difference equals that lag exactly. -/
theorem claim_C4 (steps : List ℤ) (bp : ℕ) (timestep : ℚ) (tgrid : List ℚ)
    (t : ℚ) (d : ℤ) (ht : t ∈ tgrid) (hd : pyRound (t / timestep) = d)
    (hreal : d ∈ (offSamp steps bp).map Prod.fst) :
    (setupTGrid steps bp timestep tgrid).Nodup ∧
    ∃ ol ∈ setupTGrid steps bp timestep tgrid,
      steps.getD (ol.1 + ol.2) 0 - steps.getD ol.1 0 = d := by
  constructor
  · unfold setupTGrid
    apply List.Nodup.map_on ?_ (sortKeysZ_nodup _)
    intro x hx y hy hxy
    have hxd : ∃ u, x = argminAbs (sortKeysZ ((offSamp steps bp).map Prod.fst)) u := by
      rcases List.mem_map.mp (mem_sortKeysZ.mp hx) with ⟨u, _, hu⟩
      exact ⟨u, hu.symm⟩
    have hyd : ∃ u, y = argminAbs (sortKeysZ ((offSamp steps bp).map Prod.fst)) u := by
      rcases List.mem_map.mp (mem_sortKeysZ.mp hy) with ⟨u, _, hu⟩
      exact ⟨u, hu.symm⟩
    by_cases hos : (offSamp steps bp).map Prod.fst = []
    · have hent : sortKeysZ ((offSamp steps bp).map Prod.fst) = [] := by
        rw [hos]
        rfl
      rcases hxd with ⟨ux, hux⟩
      rcases hyd with ⟨uy, huy⟩
      rw [hux, huy, hent]
      rfl
    · have hent : sortKeysZ ((offSamp steps bp).map Prod.fst) ≠ [] := by
        intro h0
        cases hc : (offSamp steps bp).map Prod.fst with
        | nil => exact hos hc
        | cons a l =>
          have : a ∈ sortKeysZ ((offSamp steps bp).map Prod.fst) :=
            mem_sortKeysZ.mpr (by rw [hc]; exact List.mem_cons_self a l)
          rw [h0] at this
          exact List.not_mem_nil a this
      have hxk : x ∈ (offSamp steps bp).map Prod.fst := by
        rcases hxd with ⟨ux, hux⟩
        rw [hux]
        exact mem_sortKeysZ.mp (argminAbs_mem hent ux)
      have hyk : y ∈ (offSamp steps bp).map Prod.fst := by
        rcases hyd with ⟨uy, huy⟩
        rw [huy]
        exact mem_sortKeysZ.mp (argminAbs_mem hent uy)
      rcases os_lookup_mem _ x hxk with ⟨vx, hlx, hmx⟩
      rcases os_lookup_mem _ y hyk with ⟨vy, hly, hmy⟩
      rw [hlx, hly, Option.getD_some, Option.getD_some] at hxy
      have hkx : keyOfVal steps vx = x := offSamp_inv steps bp (x, vx) hmx
      have hky : keyOfVal steps vy = y := offSamp_inv steps bp (y, vy) hmy
      rw [← hkx, ← hky]
      show keyOfVal steps vx = keyOfVal steps vy
      rw [hxy]
  · have hdig : d ∈ sortKeysZ (tgrid.map (fun u => pyRound (u / timestep))) :=
      mem_sortKeysZ.mpr (List.mem_map.mpr ⟨t, ht, hd⟩)
    have hentd : d ∈ sortKeysZ ((offSamp steps bp).map Prod.fst) :=
      mem_sortKeysZ.mpr hreal
    have hargd : argminAbs (sortKeysZ ((offSamp steps bp).map Prod.fst)) d = d :=
      argminAbs_self hentd
    have hdm : d ∈ sortKeysZ
        ((sortKeysZ (tgrid.map (fun u => pyRound (u / timestep)))).map
          (fun u => argminAbs (sortKeysZ ((offSamp steps bp).map Prod.fst)) u)) :=
      mem_sortKeysZ.mpr (List.mem_map.mpr ⟨d, hdig, hargd⟩)
    rcases os_lookup_mem _ d hreal with ⟨vd, hld, hmd⟩
    refine ⟨((offSamp steps bp).lookup d).getD (0, 0), ?_, ?_⟩
    · unfold setupTGrid
      exact List.mem_map.mpr ⟨d, hdm, rfl⟩
    · rw [hld, Option.getD_some]
      exact offSamp_inv steps bp (d, vd) hmd

theorem claim_C4_witness :
    ((2 : ℚ) ∈ [(2 : ℚ)]) ∧ pyRound ((2 : ℚ) / 1) = 2 ∧
    ((2 : ℤ) ∈ (offSamp [0, 1, 2, 3] 1).map Prod.fst) ∧
    ((setupTGrid [0, 1, 2, 3] 1 1 [2]).Nodup ∧
     ∃ ol ∈ setupTGrid [0, 1, 2, 3] 1 1 [2],
       ([0, 1, 2, 3] : List ℤ).getD (ol.1 + ol.2) 0 - ([0, 1, 2, 3] : List ℤ).getD ol.1 0 = 2) :=
  ⟨List.mem_singleton.mpr rfl, by simp [pyRound], by decide,
   claim_C4 [0, 1, 2, 3] 1 1 [2] 2 2 (List.mem_singleton.mpr rfl)
     (by simp [pyRound]) (by decide)⟩

/-!
Relaxation time extraction (_extract_tau in fkt.py). The helper feqc it
calls lives in the helpers module, which is not under src/, so it is
modelled from the spec below. _extract_tau itself builds a dict keyed by
the shell norm, entry by entry, catching the ValueError of feqc and
recording None for that shell.
-/

/-- The float value 1/numpy.exp(1.0) passed as the crossing target,
modelled by its decimal expansion as a rational. -/
def invE : ℚ := 36787944117144233 / 100000000000000000

/-- Modelled from the spec: the helper feqc (module helpers, not under
src/) finds the first time at which the curve crosses the target by
linear interpolation between bracketing samples, and fails (ValueError,
here the error outcome) when the curve never drops below the target. -/
def feqcAux : List (ℚ × ℚ) → ℚ → Except Unit ℚ
  | [], _ => Except.error ()
  | [_], _ => Except.error ()
  | (t0, f0) :: (t1, f1) :: rest, tgt =>
    if tgt < f0 ∧ f1 ≤ tgt then
      Except.ok (t0 + (tgt - f0) * (t1 - t0) / (f1 - f0))
    else feqcAux ((t1, f1) :: rest) tgt

/-- Modelled from the spec: feqc on a (time, value) curve. -/
def feqc (t f : List ℚ) (target : ℚ) : Except Unit ℚ :=
  feqcAux (t.zip f) target

/-- The per-shell outcome of the try/except around feqc: the crossing
time, or None when feqc raises. -/
def tauOf (t : List ℚ) (f : List ℚ) : Option ℚ :=
  match feqc t f invE with
  | Except.ok v => some v
  | Except.error _ => none

/-- Python dict assignment tau[k] = v: overwrite in place when the key
exists, append otherwise. -/
def dictInsert (m : List (ℚ × Option ℚ)) (k : ℚ) (v : Option ℚ) :
    List (ℚ × Option ℚ) :=
  if k ∈ m.map Prod.fst then m.map (fun kv => if kv.1 = k then (k, v) else kv)
  else m ++ [(k, v)]

/-- _extract_tau: for i, k in enumerate(k): tau[k] = feqc(...) or None. -/
def extractTau (ks : List ℚ) (t : List ℚ) (fs : List (List ℚ)) :
    List (ℚ × Option ℚ) :=
  ks.enum.foldl (fun m p => dictInsert m p.2 (tauOf t (fs.getD p.1 []))) []

theorem feqcAux_none :
    ∀ (l : List (ℚ × ℚ)) (tgt : ℚ), (∀ p ∈ l, tgt < p.2) →
      feqcAux l tgt = Except.error ()
  | [], _, _ => rfl
  | [_], _, _ => rfl
  | (t0, f0) :: (t1, f1) :: rest, tgt, h => by
    unfold feqcAux
    rw [if_neg]
    · exact feqcAux_none ((t1, f1) :: rest) tgt
        (fun p hp => h p (List.mem_cons_of_mem _ hp))
    · intro hc
      exact absurd hc.2 (not_le.mpr (h (t1, f1) (List.mem_cons_of_mem _ (List.mem_cons_self _ _))))

/-- A curve that never drops to the target yields the None sentinel. -/
theorem tauOf_none (t f : List ℚ) (h : ∀ v ∈ f, invE < v) : tauOf t f = none := by
  unfold tauOf feqc
  rw [feqcAux_none (t.zip f) invE (fun p hp => h p.2 (List.of_mem_zip hp).2)]

theorem extractTau_go (t : List ℚ) (fs : List (List ℚ)) :
    ∀ (ps : List (ℕ × ℚ)) (m : List (ℚ × Option ℚ)),
      (ps.map Prod.snd).Nodup →
      (∀ q ∈ ps.map Prod.snd, q ∉ m.map Prod.fst) →
      ps.foldl (fun m p => dictInsert m p.2 (tauOf t (fs.getD p.1 []))) m
        = m ++ ps.map (fun p => (p.2, tauOf t (fs.getD p.1 [])))
  | [], m, _, _ => by simp
  | p :: ps, m, hnd, hdisj => by
    rw [List.foldl_cons]
    have hins : dictInsert m p.2 (tauOf t (fs.getD p.1 []))
        = m ++ [(p.2, tauOf t (fs.getD p.1 []))] := by
      unfold dictInsert
      rw [if_neg (hdisj p.2 (by simp))]
    rw [hins]
    rw [extractTau_go t fs ps (m ++ [(p.2, tauOf t (fs.getD p.1 []))])
      (by rw [List.map_cons] at hnd; exact hnd.of_cons) ?_]
    · rw [List.append_assoc]
      rfl
    · intro q hq
      rw [List.map_append]
      intro hmem
      rcases List.mem_append.mp hmem with h2 | h2
      · exact hdisj q (by rw [List.map_cons]; exact List.mem_cons_of_mem _ hq) h2
      · have hq2 : q = p.2 := by simpa using h2
        rw [List.map_cons] at hnd
        exact (List.nodup_cons.mp hnd).1 (hq2 ▸ hq)

/-- C6 amended: for pairwise-distinct shell norms _extract_tau returns
one entry per shell, each entry computed from that shell's own curve
alone (so a failing shell cannot affect the others, and the function
never raises: it is total), and a shell whose curve never drops to the
1/e target is recorded as the None sentinel. -/
theorem claim_C6_amended (ks t : List ℚ) (fs : List (List ℚ)) (hnd : ks.Nodup) :
    extractTau ks t fs = ks.enum.map (fun p => (p.2, tauOf t (fs.getD p.1 []))) ∧
    (extractTau ks t fs).length = ks.length ∧
    ∀ i, (∀ v ∈ fs.getD i [], invE < v) → tauOf t (fs.getD i []) = none := by
  have heq : extractTau ks t fs
      = ks.enum.map (fun p => (p.2, tauOf t (fs.getD p.1 []))) := by
    unfold extractTau
    rw [extractTau_go t fs ks.enum []
      (by rw [List.enum_map_snd]; exact hnd)
      (fun q _ h => List.not_mem_nil q h)]
    rw [List.nil_append]
  refine ⟨heq, ?_, fun i h => tauOf_none t (fs.getD i []) h⟩
  rw [heq, List.length_map, List.enum_length]

/-- C6 fails as stated on duplicate shell norms: with two shells of equal
norm the dict keyed by the norm keeps a single entry (the second shell
overwrites the first), so the result does not have one entry per shell. -/
theorem claim_C6_counterexample :
    (extractTau [1, 1] [0, 1] [[1, 1], [1, 0]]).length = 1 ∧
    (extractTau [1, 1] [0, 1] [[1, 1], [1, 0]]).length ≠ 2 := by
  have h : (extractTau [1, 1] [0, 1] [[1, 1], [1, 0]]).length = 1 := by
    norm_num [extractTau, dictInsert, tauOf, feqc, feqcAux, invE, List.enum,
      List.enumFrom]
  exact ⟨h, by rw [h]; decide⟩

theorem claim_C6_amended_witness :
    ([(1 : ℚ), 2]).Nodup ∧
    (extractTau [1, 2] [0, 1] [[1, 1], [1, 0]] =
      ([(1 : ℚ), 2]).enum.map
        (fun p => (p.2, tauOf [0, 1] (([[1, 1], [1, 0]] : List (List ℚ)).getD p.1 []))) ∧
     (extractTau [1, 2] [0, 1] [[1, 1], [1, 0]]).length = ([(1 : ℚ), 2]).length ∧
     ∀ i, (∀ v ∈ ([[1, 1], [1, 0]] : List (List ℚ)).getD i [], invE < v) →
       tauOf [0, 1] (([[1, 1], [1, 0]] : List (List ℚ)).getD i []) = none) :=
  ⟨by simp, claim_C6_amended [1, 2] [0, 1] [[1, 1], [1, 0]] (by simp)⟩

/-!
Array setup (Correlation._setup_arrays_onebody and _setup_arrays_twobody
in correlation.py). Frames are represented by their per-frame particle
counts after filtering; the dump kinds requested by the engine are the
phasespace list. Two error paths exist in the source. First, the
unfolded-position dump loops (for s in trajectory.Unfolded(...), lines
229 and 265) use the bare name trajectory, which the module never
imports, so requesting 'pos-unf' raises NameError unconditionally,
before the zero-particle check is reached. Second, the zero-particle
ValueError check inspects only the folded-position arrays: the onebody
path checks _pos when it is nonempty, the twobody path checks _pos_0 and
_pos_1; velocities are never checked, and the unfolded arrays are never
built (the NameError preempts them).
-/

inductive Phasespace
  | pos
  | vel
  | posUnf
deriving DecidableEq, Repr

/-- The exceptions the setup step can raise: the NameError from the
unbound name trajectory in the pos-unf dump loop, and the ValueError of
the grand-canonical zero-particle check. -/
inductive SetupError
  | nameError
  | valueError
deriving DecidableEq, Repr

/-- _setup_arrays_onebody: dump _pos (and _vel, never checked), then the
pos-unf branch raises NameError; otherwise raise ValueError if the _pos
list is nonempty and contains a zero-particle frame. Returns the
particle counts of _pos on success (_pos_unf stays empty: it is only
ever filled by the loop that raises). -/
def setupOnebody (ps : List Phasespace) (n : ℕ) (cnt : ℕ → ℕ) :
    Except SetupError (List ℕ) :=
  let posL := if Phasespace.pos ∈ ps then (List.range n).map cnt else []
  if Phasespace.posUnf ∈ ps then Except.error SetupError.nameError
  else if 0 < posL.length ∧ 0 ∈ posL then Except.error SetupError.valueError
  else Except.ok posL

/-- _setup_arrays_twobody: with at most one filter it delegates to the
onebody path and aliases _pos_0 = _pos_1 = _pos; otherwise it dumps both
filters, the pos-unf branch raises NameError, and then ValueError is
raised if _pos_0 or _pos_1 contains a zero-particle frame. -/
def setupTwobody (ncbk : ℕ) (ps : List Phasespace) (n : ℕ)
    (cnt cnt0 cnt1 : ℕ → ℕ) : Except SetupError (List ℕ × List ℕ) :=
  if ncbk ≤ 1 then
    match setupOnebody ps n cnt with
    | Except.error e => Except.error e
    | Except.ok pos => Except.ok (pos, pos)
  else
    let pos0 := if Phasespace.pos ∈ ps then (List.range n).map cnt0 else []
    let pos1 := if Phasespace.pos ∈ ps then (List.range n).map cnt1 else []
    if Phasespace.posUnf ∈ ps then Except.error SetupError.nameError
    else if 0 ∈ pos0 ∨ 0 ∈ pos1 then Except.error SetupError.valueError
    else Except.ok (pos0, pos1)

/-- Correlation.compute: _setup_arrays, then _compute on its result; any
setup exception propagates and _compute never runs. -/
def correlationCompute {ε α β : Type} (setup : Except ε α) (comp : α → β) :
    Except ε β :=
  match setup with
  | Except.error e => Except.error e
  | Except.ok a => Except.ok (comp a)

/-- C7 fails as stated: a velocity-only engine gets no zero-particle
check at all (the setup returns ok on a one-frame trajectory whose
filtered sample is empty), and an engine that dumps unfolded positions
(such as SelfIntermediateScattering, phasespace pos-unf) raises the
NameError of the unbound name trajectory - unconditionally, whatever the
particle counts - never the ValueError the claim promises. -/
theorem claim_C7_counterexample :
    setupOnebody [Phasespace.vel] 1 (fun _ => 0) = Except.ok [] ∧
    setupOnebody [Phasespace.posUnf] 1 (fun _ => 0)
      = Except.error SetupError.nameError ∧
    setupOnebody [Phasespace.posUnf] 1 (fun _ => 5)
      = Except.error SetupError.nameError ∧
    setupTwobody 2 [Phasespace.posUnf] 1 (fun _ => 0) (fun _ => 0) (fun _ => 0)
      = Except.error SetupError.nameError ∧
    SetupError.nameError ≠ SetupError.valueError := by
  refine ⟨rfl, rfl, rfl, rfl, ?_⟩
  decide

/-- C7 amended: when 'pos-unf' is requested the setup always fails
before _compute, but with the NameError of the unbound name trajectory,
never the claimed ValueError and independently of the particle counts;
when 'pos-unf' is not requested, the ValueError is raised exactly when a
zero-particle frame appears in a folded-position ('pos') array - for the
onebody path when 'pos' is dumped and the trajectory is nonempty, for
the two-filter path when 'pos' is dumped and either filter has an empty
frame; velocity-only configurations are never checked. Any setup error
reaches _compute for no continuation. -/
theorem claim_C7_amended (ps : List Phasespace) (n : ℕ)
    (cnt cnt0 cnt1 : ℕ → ℕ) (ncbk : ℕ) (hn : 2 ≤ ncbk) :
    (Phasespace.posUnf ∈ ps →
      setupOnebody ps n cnt = Except.error SetupError.nameError ∧
      setupTwobody ncbk ps n cnt cnt0 cnt1 = Except.error SetupError.nameError) ∧
    (Phasespace.posUnf ∉ ps →
      (setupOnebody ps n cnt = Except.error SetupError.valueError ↔
        (Phasespace.pos ∈ ps ∧ 0 < n ∧ ∃ i < n, cnt i = 0)) ∧
      (setupTwobody ncbk ps n cnt cnt0 cnt1 = Except.error SetupError.valueError ↔
        (Phasespace.pos ∈ ps ∧ ∃ i < n, (cnt0 i = 0 ∨ cnt1 i = 0)))) ∧
    (∀ (e : SetupError) (f : List ℕ → List ℚ),
      setupOnebody ps n cnt = Except.error e →
      correlationCompute (setupOnebody ps n cnt) f = Except.error e) := by
  refine ⟨?_, ?_, ?_⟩
  · intro hu
    constructor
    · unfold setupOnebody
      rw [if_pos hu]
    · unfold setupTwobody
      rw [if_neg (by omega)]
      rw [if_pos hu]
  · intro hu
    constructor
    · unfold setupOnebody
      rw [if_neg hu]
      by_cases hp : Phasespace.pos ∈ ps
      · simp only [if_pos hp]
        by_cases hc : 0 < ((List.range n).map cnt).length ∧ 0 ∈ (List.range n).map cnt
        · rw [if_pos hc]
          refine iff_of_true rfl ?_
          rcases hc with ⟨hlen, hmem⟩
          rcases List.mem_map.mp hmem with ⟨i, hi, hz⟩
          exact ⟨hp, by simpa using hlen, i, List.mem_range.mp hi, hz⟩
        · rw [if_neg hc]
          refine iff_of_false (by simp) ?_
          rintro ⟨h1, hn0, i, hi, hz⟩
          exact hc ⟨by simpa using hn0, List.mem_map.mpr ⟨i, List.mem_range.mpr hi, hz⟩⟩
      · simp only [if_neg hp]
        refine iff_of_false ?_ (fun h => hp h.1)
        rw [if_neg (by simp)]
        simp
    · unfold setupTwobody
      rw [if_neg (by omega), if_neg hu]
      by_cases hp : Phasespace.pos ∈ ps
      · simp only [if_pos hp]
        by_cases hc : 0 ∈ (List.range n).map cnt0 ∨ 0 ∈ (List.range n).map cnt1
        · rw [if_pos hc]
          refine iff_of_true rfl ⟨hp, ?_⟩
          rcases hc with hc | hc
          · rcases List.mem_map.mp hc with ⟨i, hi, hz⟩
            exact ⟨i, List.mem_range.mp hi, Or.inl hz⟩
          · rcases List.mem_map.mp hc with ⟨i, hi, hz⟩
            exact ⟨i, List.mem_range.mp hi, Or.inr hz⟩
        · rw [if_neg hc]
          refine iff_of_false (by simp) ?_
          rintro ⟨h1, i, hi, hz⟩
          apply hc
          rcases hz with hz | hz
          · exact Or.inl (List.mem_map.mpr ⟨i, List.mem_range.mpr hi, hz⟩)
          · exact Or.inr (List.mem_map.mpr ⟨i, List.mem_range.mpr hi, hz⟩)
      · simp only [if_neg hp]
        refine iff_of_false ?_ (fun h => hp h.1)
        rw [if_neg (by simp)]
        simp
  · intro e f herr
    unfold correlationCompute
    rw [herr]

theorem claim_C7_amended_witness :
    2 ≤ 2 ∧
    ((Phasespace.posUnf ∈ [Phasespace.pos] →
      setupOnebody [Phasespace.pos] 1 (fun _ => 0) = Except.error SetupError.nameError ∧
      setupTwobody 2 [Phasespace.pos] 1 (fun _ => 0) (fun _ => 0) (fun _ => 0)
        = Except.error SetupError.nameError) ∧
    (Phasespace.posUnf ∉ [Phasespace.pos] →
      (setupOnebody [Phasespace.pos] 1 (fun _ => 0) = Except.error SetupError.valueError ↔
        (Phasespace.pos ∈ [Phasespace.pos] ∧ 0 < 1 ∧ ∃ i < 1, (fun _ : ℕ => 0) i = 0)) ∧
      (setupTwobody 2 [Phasespace.pos] 1 (fun _ => 0) (fun _ => 0) (fun _ => 0)
          = Except.error SetupError.valueError ↔
        (Phasespace.pos ∈ [Phasespace.pos] ∧
          ∃ i < 1, ((fun _ : ℕ => 0) i = 0 ∨ (fun _ : ℕ => 0) i = 0)))) ∧
    (∀ (e : SetupError) (f : List ℕ → List ℚ),
      setupOnebody [Phasespace.pos] 1 (fun _ => 0) = Except.error e →
      correlationCompute (setupOnebody [Phasespace.pos] 1 (fun _ => 0)) f
        = Except.error e)) :=
  ⟨by decide,
   claim_C7_amended [Phasespace.pos] 1 (fun _ => 0) (fun _ => 0) (fun _ => 0) 2
     (by decide)⟩

/-!
Field loading of the structure factor (StructureFactor._add_field in
sk.py). After reading the per-frame arrays the source subtracts what its
comment calls the global mean; the quantity actually subtracted is the
mean over frames of the per-frame means, computed with mean += f.mean()
per frame followed by mean /= len(fields).
-/

/-- numpy mean of one frame's per-particle values. -/
def frameMean (f : List ℚ) : ℚ := f.sum / (f.length : ℚ)

/-- The subtracted constant: the average of the per-frame means. -/
def addFieldMean (fields : List (List ℚ)) : ℚ :=
  (fields.map frameMean).sum / (fields.length : ℚ)

/-- The stored field arrays after the subtraction. -/
def addField (fields : List (List ℚ)) : List (List ℚ) :=
  fields.map (fun f => f.map (fun x => x - addFieldMean fields))

/-- C9 is a code bug: on a grand-canonical trajectory whose particle
count varies between frames ([[0], [2, 2]]) the subtracted constant is
the mean of frame means (1), not the global per-particle mean (4/3), so
the stored values [[-1], [1, 1]] have global per-particle mean 1/3, not
the zero promised by the source comment (Subtract global mean) and the
spec. -/
theorem claim_C9 :
    addField [[0], [2, 2]] = [[-1], [1, 1]] ∧
    addFieldMean [[0], [2, 2]] = 1 ∧
    (addField [[0], [2, 2]]).flatten.sum /
      (((addField [[0], [2, 2]]).flatten.length : ℕ) : ℚ) = 1 / 3 ∧
    (addField [[0], [2, 2]]).flatten.sum /
      (((addField [[0], [2, 2]]).flatten.length : ℕ) : ℚ) ≠ 0 := by
  have hm : addFieldMean [[0], [2, 2]] = 1 := by
    norm_num [addFieldMean, frameMean]
  have ha : addField [[0], [2, 2]] = [[-1], [1, 1]] := by
    rw [addField, hm]
    norm_num
  refine ⟨ha, hm, ?_, ?_⟩
  · rw [ha]
    norm_num
  · rw [ha]
    norm_num
